import Mathlib

/-!
Verification of the GitHub-sync reconciliation engine
(`.obsidian/plugins/github-sync-pro/main.js`).

The JavaScript source is shallowly embedded:

* a JS binary string is modelled as the list of its UTF-16 code units
  (`List Nat`); `String.fromCharCode` / `charCodeAt` are then the identity
  on those code units, exactly as in the byte loops of
  `arrayBufferToBase64` / `base64ToArrayBuffer`;
* `btoa` / `atob` are the platform's standard Base64 codec over such
  code-unit strings and are modelled as `encodeBase64` / `decodeBase64`
  (`atob` is modelled on well-formed inputs, the only ones the plugin
  ever produces or consumes after whitespace stripping);
* file contents are byte lists, the GitHub content API is a state machine
  over a list of remote files with content-addressed `sha` tokens,
  following the documented create/update/delete token rules;
* each `execute*` method of the plugin becomes a function from a sync
  state to a `RunResult` recording the final state, whether the run
  completed without an uncaught exception (`ok`), and the trace of API
  calls it issued, mirroring the `try`/`catch` placement of the source
  line by line.
-/

/-- Bytes of a file, as produced by `readBinary` / `Uint8Array`. -/
abbrev Content := List Nat

/-- The 64 characters of the standard Base64 alphabet used by
`btoa`/`atob`. -/
def b64chars : List Char :=
  ['A','B','C','D','E','F','G','H','I','J','K','L','M',
   'N','O','P','Q','R','S','T','U','V','W','X','Y','Z',
   'a','b','c','d','e','f','g','h','i','j','k','l','m',
   'n','o','p','q','r','s','t','u','v','w','x','y','z',
   '0','1','2','3','4','5','6','7','8','9','+','/']

/-- Character for a 6-bit group (index into the Base64 alphabet). -/
def b64enc (i : Nat) : Char := b64chars.getD i 'A'

/-- Index of a Base64 character in the alphabet (inverse of `b64enc`
on the alphabet; returns 64 on characters outside it). -/
def b64dec (c : Char) : Nat := b64chars.indexOf c

/-- `btoa` on a code-unit string whose units are all bytes: standard
Base64 with `=` padding, three bytes to four characters. -/
def encodeBase64 : List Nat → List Char
  | [] => []
  | [a] => [b64enc (a / 4), b64enc (a % 4 * 16), '=', '=']
  | [a, b] => [b64enc (a / 4), b64enc (a % 4 * 16 + b / 16), b64enc (b % 16 * 4), '=']
  | a :: b :: c :: rest =>
      b64enc (a / 4) :: b64enc (a % 4 * 16 + b / 16) ::
        b64enc (b % 16 * 4 + c / 64) :: b64enc (c % 64) :: encodeBase64 rest

/-- `atob` on well-formed Base64 text (length a multiple of four, `=`
only as final padding), producing the code units of the decoded binary
string. -/
def decodeBase64 : List Char → List Nat
  | c1 :: c2 :: c3 :: c4 :: rest =>
      if c3 = '=' then [b64dec c1 * 4 + b64dec c2 / 16]
      else if c4 = '=' then
        [b64dec c1 * 4 + b64dec c2 / 16, b64dec c2 % 16 * 16 + b64dec c3 / 4]
      else
        (b64dec c1 * 4 + b64dec c2 / 16) :: (b64dec c2 % 16 * 16 + b64dec c3 / 4) ::
          (b64dec c3 % 4 * 64 + b64dec c4) :: decodeBase64 rest
  | _ => []

/-- The whitespace class of the JavaScript regular expression `\s`,
which `base64ToArrayBuffer` strips from its input before decoding. -/
def isJsSpace (c : Char) : Bool :=
  c.toNat = 0x20 || c.toNat = 0x09 || c.toNat = 0x0a || c.toNat = 0x0d ||
  c.toNat = 0x0b || c.toNat = 0x0c || c.toNat = 0xa0 || c.toNat = 0x1680 ||
  (0x2000 ≤ c.toNat && c.toNat ≤ 0x200a) || c.toNat = 0x2028 ||
  c.toNat = 0x2029 || c.toNat = 0x202f || c.toNat = 0x205f ||
  c.toNat = 0x3000 || c.toNat = 0xfeff

/-- `arrayBufferToBase64(buffer)`: builds the binary string from the
bytes with `String.fromCharCode` (identity on code units) and applies
`btoa`. -/
def arrayBufferToBase64 (buffer : Content) : List Char :=
  encodeBase64 buffer

/-- `base64ToArrayBuffer(base64)`: strips all `\s` whitespace, applies
`atob`, and reads the bytes back with `charCodeAt` (identity on code
units). -/
def base64ToArrayBuffer (base64 : List Char) : Content :=
  decodeBase64 (base64.filter (fun c => !(isJsSpace c)))

theorem b64dec_b64enc_fin : ∀ i : Fin 64, b64dec (b64enc i.val) = i.val := by
  decide

theorem b64dec_b64enc {i : Nat} (h : i < 64) : b64dec (b64enc i) = i :=
  b64dec_b64enc_fin ⟨i, h⟩

theorem b64enc_ne_eq {i : Nat} (h : i < 64) : b64enc i ≠ '=' := by
  intro hc
  have h1 : b64dec (b64enc i) = i := b64dec_b64enc h
  rw [hc] at h1
  have h2 : b64dec '=' = 64 := by decide
  omega

theorem isJsSpace_b64enc (i : Nat) : isJsSpace (b64enc i) = false := by
  by_cases h : i < 64
  · have hfin : ∀ j : Fin 64, isJsSpace (b64enc j.val) = false := by decide
    exact hfin ⟨i, h⟩
  · have hlen : b64chars.length ≤ i := by
      have : b64chars.length = 64 := by decide
      omega
    have : b64enc i = 'A' := by
      simp [b64enc, List.getD_eq_getElem?_getD, List.getElem?_eq_none hlen]
    rw [this]
    decide

/-- Decoding one full four-character group prepends the three original
bytes. -/
theorem decode_group (a b c : Nat) (ha : a < 256) (hb : b < 256) (hc : c < 256)
    (rest : List Char) :
    decodeBase64 (b64enc (a / 4) :: b64enc (a % 4 * 16 + b / 16) ::
      b64enc (b % 16 * 4 + c / 64) :: b64enc (c % 64) :: rest) =
      a :: b :: c :: decodeBase64 rest := by
  have h3 : b64enc (b % 16 * 4 + c / 64) ≠ '=' := b64enc_ne_eq (by omega)
  have h4 : b64enc (c % 64) ≠ '=' := b64enc_ne_eq (by omega)
  have e1 : b64dec (b64enc (a / 4)) = a / 4 := b64dec_b64enc (by omega)
  have e2 : b64dec (b64enc (a % 4 * 16 + b / 16)) = a % 4 * 16 + b / 16 :=
    b64dec_b64enc (by omega)
  have e3 : b64dec (b64enc (b % 16 * 4 + c / 64)) = b % 16 * 4 + c / 64 :=
    b64dec_b64enc (by omega)
  have e4 : b64dec (b64enc (c % 64)) = c % 64 := b64dec_b64enc (by omega)
  rw [decodeBase64, if_neg h3, if_neg h4, e1, e2, e3, e4]
  simp only [List.cons.injEq]
  refine ⟨by omega, by omega, by omega, trivial⟩

/-- Base64 round-trip on the raw codec: decoding an encoding recovers
the byte list. -/
theorem decodeBase64_encodeBase64 :
    ∀ B : Content, (∀ x ∈ B, x < 256) → decodeBase64 (encodeBase64 B) = B := by
  intro B
  induction B using encodeBase64.induct with
  | case1 => intro _; rfl
  | case2 a =>
      intro h
      have ha : a < 256 := h a (by simp)
      have e1 : b64dec (b64enc (a / 4)) = a / 4 := b64dec_b64enc (by omega)
      have e2 : b64dec (b64enc (a % 4 * 16)) = a % 4 * 16 := b64dec_b64enc (by omega)
      rw [encodeBase64, decodeBase64, if_pos rfl, e1, e2]
      simp only [List.cons.injEq, and_true]
      omega
  | case3 a b =>
      intro h
      have ha : a < 256 := h a (by simp)
      have hb : b < 256 := h b (by simp)
      have h3 : b64enc (b % 16 * 4) ≠ '=' := b64enc_ne_eq (by omega)
      have e1 : b64dec (b64enc (a / 4)) = a / 4 := b64dec_b64enc (by omega)
      have e2 : b64dec (b64enc (a % 4 * 16 + b / 16)) = a % 4 * 16 + b / 16 :=
        b64dec_b64enc (by omega)
      have e3 : b64dec (b64enc (b % 16 * 4)) = b % 16 * 4 := b64dec_b64enc (by omega)
      rw [encodeBase64, decodeBase64, if_neg h3, if_pos rfl, e1, e2, e3]
      simp only [List.cons.injEq, and_true]
      refine ⟨by omega, by omega⟩
  | case4 a b c rest ih =>
      intro h
      have ha : a < 256 := h a (by simp)
      have hb : b < 256 := h b (by simp)
      have hc : c < 256 := h c (by simp)
      have hrest : ∀ x ∈ rest, x < 256 := fun x hx => h x (by simp [hx])
      rw [encodeBase64, decode_group a b c ha hb hc, ih hrest]

/-- No character of an encoding is JavaScript whitespace. -/
theorem encodeBase64_no_space :
    ∀ B : Content, ∀ ch ∈ encodeBase64 B, isJsSpace ch = false := by
  have heq : isJsSpace '=' = false := by decide
  intro B
  induction B using encodeBase64.induct with
  | case1 => intro ch hch; simp [encodeBase64] at hch
  | case2 a =>
      intro ch hch
      simp only [encodeBase64, List.mem_cons, List.not_mem_nil, or_false] at hch
      rcases hch with h | h | h | h <;> subst h <;>
        first | exact isJsSpace_b64enc _ | exact heq
  | case3 a b =>
      intro ch hch
      simp only [encodeBase64, List.mem_cons, List.not_mem_nil, or_false] at hch
      rcases hch with h | h | h | h <;> subst h <;>
        first | exact isJsSpace_b64enc _ | exact heq
  | case4 a b c rest ih =>
      intro ch hch
      simp only [encodeBase64, List.mem_cons] at hch
      rcases hch with h | h | h | h | h
      · subst h; exact isJsSpace_b64enc _
      · subst h; exact isJsSpace_b64enc _
      · subst h; exact isJsSpace_b64enc _
      · subst h; exact isJsSpace_b64enc _
      · exact ih ch h

/-- `T` arises from `S` by inserting space, newline or tab characters at
arbitrary positions. -/
inductive InsertWs : List Char → List Char → Prop
  | nil : InsertWs [] []
  | keep (c : Char) {s t : List Char} : InsertWs s t → InsertWs (c :: s) (c :: t)
  | ws (c : Char) {s t : List Char} (h : c = ' ' ∨ c = '\n' ∨ c = '\t') :
      InsertWs s t → InsertWs s (c :: t)

theorem InsertWs.filter_eq {s t : List Char} (h : InsertWs s t)
    (hs : ∀ ch ∈ s, isJsSpace ch = false) :
    t.filter (fun c => !(isJsSpace c)) = s := by
  induction h with
  | nil => rfl
  | keep c h ih =>
      have hc : isJsSpace c = false := hs c (by simp)
      simp only [List.filter_cons, hc]
      simp [ih (fun ch hch => hs ch (by simp [hch]))]
  | ws c hw h ih =>
      have hc : isJsSpace c = true := by
        rcases hw with h1 | h1 | h1 <;> subst h1 <;> decide
      simp only [List.filter_cons, hc]
      simp [ih hs]

/-- C3: For every byte sequence B, decoding the encoding of B yields
exactly B: `base64ToArrayBuffer (arrayBufferToBase64 B) = B` — the codec
round-trips arbitrary binary content losslessly. -/
theorem roundtrip_base64 (B : Content) (h : ∀ x ∈ B, x < 256) :
    base64ToArrayBuffer (arrayBufferToBase64 B) = B := by
  unfold base64ToArrayBuffer arrayBufferToBase64
  rw [List.filter_eq_self.mpr, decodeBase64_encodeBase64 B h]
  intro ch hch
  simp [encodeBase64_no_space B ch hch]

theorem roundtrip_base64_witness :
    (∀ x ∈ [0, 255, 77, 128, 1], x < 256) ∧
      base64ToArrayBuffer (arrayBufferToBase64 [0, 255, 77, 128, 1]) =
        [0, 255, 77, 128, 1] :=
  ⟨by decide, roundtrip_base64 [0, 255, 77, 128, 1] (by decide)⟩

/-- C9: For every byte sequence B, inserting whitespace characters
(spaces, newlines, tabs) at arbitrary positions into the encoded text of
B leaves the decoding unchanged: `base64ToArrayBuffer` still returns
exactly B. -/
theorem decode_tolerates_whitespace (B : Content) (T : List Char)
    (h : ∀ x ∈ B, x < 256) (hins : InsertWs (arrayBufferToBase64 B) T) :
    base64ToArrayBuffer T = B := by
  unfold base64ToArrayBuffer
  rw [hins.filter_eq (encodeBase64_no_space B)]
  exact decodeBase64_encodeBase64 B h

theorem decode_tolerates_whitespace_witness :
    base64ToArrayBuffer ['T', 'W', '\n', 'F', ' ', 'u'] = [77, 97, 110] := by
  refine decode_tolerates_whitespace [77, 97, 110]
    ['T', 'W', '\n', 'F', ' ', 'u'] (by decide) ?_
  have hb : arrayBufferToBase64 [77, 97, 110] = ['T', 'W', 'F', 'u'] := by decide
  rw [hb]
  exact .keep 'T' (.keep 'W' (.ws '\n' (by simp)
    (.keep 'F' (.ws ' ' (by simp) (.keep 'u' .nil)))))

/-- Line terminators, which the JavaScript regex `.` does not match. -/
def isLineTerm (c : Char) : Bool :=
  c.toNat = 0x0a || c.toNat = 0x0d || c.toNat = 0x2028 || c.toNat = 0x2029

/-- One token of the regex built by `isExcluded`:
`'^' + rule.replace(/\*/g, '.*') + '$'`.  After the replacement every
`*` is part of a `.*` group, `.` matches any non-line-terminator, and
every other character of the rule stands for itself (the rule is not
escaped; the model covers rules containing no regex metacharacter other
than `*` and `.`). -/
inductive RTok
  | dot
  | dotStar
  | lit (c : Char)
deriving DecidableEq

/-- Token for one character of the rule after the `*` → `.*`
replacement. -/
def compileTok (c : Char) : RTok :=
  if c = '*' then RTok.dotStar else if c = '.' then RTok.dot else RTok.lit c

/-- The token list of the regex `'^' + rule.replace(/\*/g, '.*') + '$'`. -/
def compileRule (l : List Char) : List RTok := l.map compileTok

/-- Anchored regex matching with explicit fuel.  Every step shortens
the pattern or the input, so fuel `|pattern| + |input| + 1` is enough
to reach a base case; the fuel only makes the recursion structural.
`.*` consumes only non-line-terminator characters: without the `s`
flag the JavaScript `.` never matches a line terminator. -/
def rmatchF : Nat → List RTok → List Char → Bool
  | 0, _, _ => false
  | _ + 1, [], cs => cs.isEmpty
  | f + 1, RTok.dotStar :: ts, cs =>
      rmatchF f ts cs ||
        (match cs with
         | [] => false
         | c :: cs2 => !(isLineTerm c) && rmatchF f (RTok.dotStar :: ts) cs2)
  | _ + 1, RTok.dot :: _, [] => false
  | f + 1, RTok.dot :: ts, c :: cs => !(isLineTerm c) && rmatchF f ts cs
  | _ + 1, RTok.lit _ :: _, [] => false
  | f + 1, RTok.lit a :: ts, c :: cs => a == c && rmatchF f ts cs

/-- Anchored matching of a compiled rule against a path. -/
def rmatch (ts : List RTok) (cs : List Char) : Bool :=
  rmatchF (ts.length + cs.length + 1) ts cs

/-- `new RegExp('^' + rule.replace(/\*/g, '.*') + '$').test(path)`. -/
def regexTestRule (rule path : String) : Bool :=
  rmatch (compileRule rule.data) path.data

/-- `isExcluded(path)` over the rule set: the compiled regex matches,
or the path is nested under the rule (`path.startsWith(rule + "/")`),
or the path equals the rule verbatim. -/
def isExcluded (rules : List String) (path : String) : Bool :=
  rules.any (fun rule =>
    regexTestRule rule path ||
    List.isPrefixOf (rule.data ++ ['/']) path.data ||
    path == rule)

/-- Matcher following the amended claim's words, the unescaped-regex
reading made explicit: `*` matches any sequence of characters none of
which is a line terminator (it compiles to `.*`), `.` matches any
single character other than a line terminator, all other characters
match themselves.  Fueled like `rmatchF`. -/
def dwMatchF : Nat → List Char → List Char → Bool
  | 0, _, _ => false
  | _ + 1, [], cs => cs.isEmpty
  | f + 1, p :: ps, cs =>
      if p = '*' then
        dwMatchF f ps cs ||
          (match cs with
           | [] => false
           | c :: cs2 => !(isLineTerm c) && dwMatchF f (p :: ps) cs2)
      else
        match cs with
        | [] => false
        | c :: cs2 => (if p = '.' then !(isLineTerm c) else p == c) && dwMatchF f ps cs2

/-- The amended wildcard pattern match of a rule against a path. -/
def dotWildcardMatch (rule path : String) : Bool :=
  dwMatchF (rule.data.length + path.data.length + 1) rule.data path.data

/-- Matcher following the claim's words literally: each `*` matches
zero or more of any character, every other character of the rule (a `.`
included) matches only itself.  Fueled like `rmatchF`. -/
def swMatchF : Nat → List Char → List Char → Bool
  | 0, _, _ => false
  | _ + 1, [], cs => cs.isEmpty
  | f + 1, p :: ps, cs =>
      if p = '*' then
        swMatchF f ps cs ||
          (match cs with
           | [] => false
           | _ :: cs2 => swMatchF f (p :: ps) cs2)
      else
        match cs with
        | [] => false
        | c :: cs2 => p == c && swMatchF f ps cs2

/-- The claim's wildcard-expanded pattern match ('*' is the only special
character) of a rule against a path. -/
def specWildcardMatch (rule path : String) : Bool :=
  swMatchF (rule.data.length + path.data.length + 1) rule.data path.data

/-- Scope of the amended claim: the rule contains no regex
metacharacter other than `*` and `.`.  Any other metacharacter
(`+ ? ( ) [ ] \x7b \x7d \ ^ $ |`) would keep its regex meaning in the
unescaped compile, which the token model does not cover. -/
def ruleOnlyStarDot (r : String) : Bool :=
  r.data.all (fun c =>
    !((['+', '?', '(', ')', '[', ']', '\x7b', '\x7d', '\\', '^', '$', '|'] :
      List Char).contains c))

theorem compileRule_length (l : List Char) : (compileRule l).length = l.length :=
  List.length_map l compileTok

theorem dwMatchF_cons (f : Nat) (p : Char) (ps cs : List Char) :
    dwMatchF (f + 1) (p :: ps) cs =
      if p = '*' then
        dwMatchF f ps cs ||
          (match cs with
           | [] => false
           | c :: cs2 => !(isLineTerm c) && dwMatchF f (p :: ps) cs2)
      else
        match cs with
        | [] => false
        | c :: cs2 => (if p = '.' then !(isLineTerm c) else p == c) && dwMatchF f ps cs2 :=
  rfl

/-- The compiled regex of a rule behaves exactly as the direct
wildcard-and-dot matcher on the rule's characters. -/
theorem rmatchF_compile_eq_dw :
    ∀ f (rule cs : List Char), rmatchF f (compileRule rule) cs = dwMatchF f rule cs := by
  intro f
  induction f with
  | zero => intro rule cs; rfl
  | succ f ih =>
      intro rule cs
      cases rule with
      | nil => cases cs <;> rfl
      | cons p ps =>
          rw [dwMatchF_cons]
          by_cases hp : p = '*'
          · subst hp
            have hct : compileRule ('*' :: ps) = RTok.dotStar :: compileRule ps := rfl
            rw [hct, if_pos rfl]
            show (rmatchF f (compileRule ps) cs ||
              (match cs with
               | [] => false
               | c :: cs2 =>
                   !(isLineTerm c) && rmatchF f (RTok.dotStar :: compileRule ps) cs2)) = _
            rw [ih ps cs]
            cases cs with
            | nil => rfl
            | cons c cs2 =>
                show (dwMatchF f ps (c :: cs2) ||
                  (!(isLineTerm c) && rmatchF f (RTok.dotStar :: compileRule ps) cs2)) = _
                rw [← hct, ih ('*' :: ps) cs2]
          · rw [if_neg hp]
            by_cases hq : p = '.'
            · subst hq
              have hct : compileRule ('.' :: ps) = RTok.dot :: compileRule ps := rfl
              rw [hct]
              cases cs with
              | nil => rfl
              | cons c cs2 =>
                  show (!(isLineTerm c) && rmatchF f (compileRule ps) cs2) =
                    ((if '.' = '.' then !(isLineTerm c) else '.' == c) && dwMatchF f ps cs2)
                  rw [ih ps cs2, if_pos rfl]
            · have hct : compileRule (p :: ps) = RTok.lit p :: compileRule ps := by
                simp [compileRule, compileTok, hp, hq]
              rw [hct]
              cases cs with
              | nil => rfl
              | cons c cs2 =>
                  show (p == c && rmatchF f (compileRule ps) cs2) =
                    ((if p = '.' then !(isLineTerm c) else p == c) && dwMatchF f ps cs2)
                  rw [ih ps cs2, if_neg hq]

theorem regexTestRule_eq_dotWildcardMatch (rule path : String) :
    regexTestRule rule path = dotWildcardMatch rule path := by
  unfold regexTestRule rmatch dotWildcardMatch
  rw [compileRule_length]
  exact rmatchF_compile_eq_dw _ _ _

/-- C2, counterexample: with the single rule `.git`, the path `agit`
is excluded by the code (the unescaped `.` of the rule matches the
leading `a` through the regex), while the claim's reading — equality,
nesting, or the wildcard-expanded pattern with only `*` special —
matches nothing. -/
theorem isExcluded_counterexample :
    isExcluded [".git"] "agit" = true ∧
      ¬(("agit" : String) = ".git" ∨
        List.isPrefixOf (".git".data ++ ['/']) "agit".data = true ∨
        specWildcardMatch ".git" "agit" = true) := by
  decide

/-- C2 (amended): for every path `P` and every rule set `R` whose rules
contain no regex metacharacter other than `*` and `.`, `isExcluded(P)`
returns true iff `P` equals some rule, or `P` is nested under some rule
(the path starts with the rule followed by `/`), or `P` matches some
rule's pattern anchored at both ends in which — because the rule is
compiled to an unescaped regex without the `s` flag — each `*` matches
zero or more characters none of which is a line terminator, and each
`.` matches any single character other than a line terminator. -/
theorem isExcluded_iff (rules : List String) (path : String)
    (_hscope : ∀ r ∈ rules, ruleOnlyStarDot r = true) :
    isExcluded rules path = true ↔
      ∃ r ∈ rules, path = r ∨
        List.isPrefixOf (r.data ++ ['/']) path.data = true ∨
        dotWildcardMatch r path = true := by
  unfold isExcluded
  rw [List.any_eq_true]
  constructor
  · rintro ⟨r, hr, hcond⟩
    refine ⟨r, hr, ?_⟩
    rw [Bool.or_eq_true, Bool.or_eq_true] at hcond
    rcases hcond with (hm | hm) | hm
    · rw [regexTestRule_eq_dotWildcardMatch] at hm
      exact Or.inr (Or.inr hm)
    · exact Or.inr (Or.inl hm)
    · exact Or.inl (by simpa using hm)
  · rintro ⟨r, hr, hcond⟩
    refine ⟨r, hr, ?_⟩
    rw [Bool.or_eq_true, Bool.or_eq_true]
    rcases hcond with hm | hm | hm
    · exact Or.inr (by simpa using hm)
    · exact Or.inl (Or.inr hm)
    · rw [regexTestRule_eq_dotWildcardMatch]
      exact Or.inl (Or.inl hm)

theorem isExcluded_iff_witness :
    (∀ r ∈ ([".git", "assets/*"] : List String), ruleOnlyStarDot r = true) ∧
      (isExcluded [".git", "assets/*"] "assets/img.png" = true ↔
        ∃ r ∈ ([".git", "assets/*"] : List String), ("assets/img.png" : String) = r ∨
          List.isPrefixOf (r.data ++ ['/']) ("assets/img.png" : String).data = true ∨
          dotWildcardMatch r "assets/img.png" = true) :=
  ⟨by decide, isExcluded_iff [".git", "assets/*"] "assets/img.png" (by decide)⟩

/-- One blob row of the remote tree listing
(`GET /git/trees/{branch}?recursive=1`, filtered to `type === 'blob'`):
a path and its content-addressed `sha` token. -/
structure RemoteEntry where
  path : String
  sha : String
deriving DecidableEq

/-- One file stored on the remote: its path, content and current `sha`
token. -/
structure RemoteFile where
  path : String
  content : Content
  sha : String
deriving DecidableEq

/-- The two file stores a sync run acts on: the local vault (path ↦
bytes, via the vault adapter) and the remote repository contents. -/
structure SyncState where
  localFs : List (String × Content)
  remoteFs : List RemoteFile
deriving DecidableEq

/-- One request the engine sends to the remote API.  `put` records the
`sha` field of the request body (`undefined` = `none`) and the decoded
content; Base64 transcoding on the wire is the verified codec above. -/
inductive ApiCall
  | fetchTree
  | put (path : String) (sha : Option String) (content : Content)
  | del (path : String) (sha : String)
  | get (path : String)
deriving DecidableEq

/-- Outcome of a run: final state, whether it finished without an
uncaught exception, and the API calls issued in order. -/
structure RunResult where
  st : SyncState
  ok : Bool
  calls : List ApiCall
deriving DecidableEq

/-- `vault.adapter.readBinary(path)` (fails when the path is absent). -/
def lookupLocal (fs : List (String × Content)) (p : String) : Option Content :=
  (fs.find? (fun e => e.1 == p)).map (fun e => e.2)

/-- `vault.adapter.writeBinary(path, content)`: overwrite or create. -/
def writeLocal (fs : List (String × Content)) (p : String) (c : Content) :
    List (String × Content) :=
  if fs.any (fun e => e.1 == p) then
    fs.map (fun e => if e.1 == p then (p, c) else e)
  else fs ++ [(p, c)]

/-- The remote file currently stored at a path, if any. -/
def lookupRemote (fs : List RemoteFile) (p : String) : Option RemoteFile :=
  fs.find? (fun f => f.path == p)

/-- The tree listing the `sync` method fetches: every remote blob as a
(path, sha) entry. -/
def listRemote (fs : List RemoteFile) : List RemoteEntry :=
  fs.map (fun f => ⟨f.path, f.sha⟩)

/-- Modelled from the spec: the provider's `PUT /contents/{path}`
create-or-update call, external to the repository.  With no `sha` it
creates only if the path does not already exist; with a `sha` it updates
only if the token matches the current blob; the new token is the
content-addressed hash of the new content.  Returns `none` on the error
responses (token conflict, create on existing path, update of a missing
path), which `requestUrl` turns into a thrown exception. -/
def putRemote (hash : Content → String) (fs : List RemoteFile) (p : String)
    (c : Content) (sha : Option String) : Option (List RemoteFile) :=
  match lookupRemote fs p, sha with
  | none, none => some (fs ++ [⟨p, c, hash c⟩])
  | none, some _ => none
  | some _, none => none
  | some f, some s =>
      if f.sha = s then
        some (fs.map (fun g => if g.path == p then ⟨p, c, hash c⟩ else g))
      else none

/-- Modelled from the spec: `DELETE /contents/{path}` — removes the blob
only if the supplied token matches; errors otherwise. -/
def deleteRemote (fs : List RemoteFile) (p : String) (sha : String) :
    Option (List RemoteFile) :=
  match lookupRemote fs p with
  | none => none
  | some f =>
      if f.sha = sha then some (fs.filter (fun g => !(g.path == p))) else none

/-- Modelled from the spec: `GET /contents/{path}` — content and token
of the blob at the path, error if absent. -/
def getRemote (fs : List RemoteFile) (p : String) : Option (Content × String) :=
  (lookupRemote fs p).map (fun f => (f.content, f.sha))

/-- `downloadFile(path)`: GET the blob, create parent directories, write
the bytes locally.  The whole body is inside `try { … } catch`, so any
failure is logged and swallowed — the state is simply left unchanged. -/
def downloadFile (st : SyncState) (p : String) : SyncState × List ApiCall :=
  match getRemote st.remoteFs p with
  | none => (st, [ApiCall.get p])
  | some (c, _) => ({ st with localFs := writeLocal st.localFs p c }, [ApiCall.get p])

/-- `uploadFile(path, content, sha)`: a single PUT with **no** internal
`try`/`catch` — a failing request propagates to the caller as an
exception (`none`). -/
def uploadFile (hash : Content → String) (st : SyncState) (p : String)
    (c : Content) (sha : Option String) : Option SyncState × ApiCall :=
  match putRemote hash st.remoteFs p c sha with
  | none => (none, ApiCall.put p sha c)
  | some rfs => (some { st with remoteFs := rfs }, ApiCall.put p sha c)

/-- The upload loop of `executePush`: for each local path, `readBinary`
(outside any `try` — a read failure aborts the whole method), then a PUT
with the matching tree entry's `sha` (or `undefined`), inside
`try { … } catch` — a failed PUT is logged and the loop continues. -/
def pushUploads (hash : Content → String) (remotes : List RemoteEntry) :
    List String → SyncState → RunResult
  | [], st => ⟨st, true, []⟩
  | p :: rest, st =>
      match lookupLocal st.localFs p with
      | none => ⟨st, false, []⟩
      | some c =>
          let shaOpt := (remotes.find? (fun r => r.path == p)).map RemoteEntry.sha
          match putRemote hash st.remoteFs p c shaOpt with
          | none =>
              let res := pushUploads hash remotes rest st
              ⟨res.st, res.ok, ApiCall.put p shaOpt c :: res.calls⟩
          | some rfs =>
              let res := pushUploads hash remotes rest { st with remoteFs := rfs }
              ⟨res.st, res.ok, ApiCall.put p shaOpt c :: res.calls⟩

/-- The delete loop of `executePush`: for each tree entry that is
neither a local path nor excluded, a DELETE with its `sha`, inside
`try { … } catch` — a failed DELETE is logged and the loop continues. -/
def pushDeletes : List RemoteEntry → SyncState → RunResult
  | [], st => ⟨st, true, []⟩
  | r :: rest, st =>
      match deleteRemote st.remoteFs r.path r.sha with
      | none =>
          let res := pushDeletes rest st
          ⟨res.st, res.ok, ApiCall.del r.path r.sha :: res.calls⟩
      | some rfs =>
          let res := pushDeletes rest { st with remoteFs := rfs }
          ⟨res.st, res.ok, ApiCall.del r.path r.sha :: res.calls⟩

/-- `executePush(localPaths, remotes)`: upload every local path, then
delete every remote entry that is neither local nor excluded. -/
def executePush (hash : Content → String) (rules : List String)
    (localPaths : List String) (remotes : List RemoteEntry) (st : SyncState) :
    RunResult :=
  let u := pushUploads hash remotes localPaths st
  if u.ok then
    let toDelete := remotes.filter
      (fun r => !(localPaths.contains r.path) && !(isExcluded rules r.path))
    let d := pushDeletes toDelete u.st
    ⟨d.st, d.ok, u.calls ++ d.calls⟩
  else u

/-- `executePull(remotes)`: download every tree entry that is not
excluded (`downloadFile` swallows its own failures). -/
def executePull (rules : List String) : List RemoteEntry → SyncState → RunResult
  | [], st => ⟨st, true, []⟩
  | r :: rest, st =>
      if isExcluded rules r.path then executePull rules rest st
      else
        let d := downloadFile st r.path
        let res := executePull rules rest d.1
        ⟨res.st, res.ok, d.2 ++ res.calls⟩

/-- The upload loop of `executeMerge`: for each local path with no
matching tree entry, `readBinary` and `uploadFile(path, content, null)`.
Neither is wrapped in a `try` inside the loop, so the first failure
aborts the whole run (`ok = false`). -/
def mergeUploads (hash : Content → String) (remotes : List RemoteEntry) :
    List String → SyncState → RunResult
  | [], st => ⟨st, true, []⟩
  | p :: rest, st =>
      match remotes.find? (fun r => r.path == p) with
      | some _ => mergeUploads hash remotes rest st
      | none =>
          match lookupLocal st.localFs p with
          | none => ⟨st, false, []⟩
          | some c =>
              match uploadFile hash st p c none with
              | (none, call) => ⟨st, false, [call]⟩
              | (some st2, call) =>
                  let res := mergeUploads hash remotes rest st2
                  ⟨res.st, res.ok, call :: res.calls⟩

/-- The download loop of `executeMerge`: every tree entry that is not
excluded and not a local path is downloaded (failures swallowed by
`downloadFile`). -/
def mergeDownloads (rules : List String) (localPaths : List String) :
    List RemoteEntry → SyncState → RunResult
  | [], st => ⟨st, true, []⟩
  | r :: rest, st =>
      if isExcluded rules r.path then mergeDownloads rules localPaths rest st
      else if localPaths.contains r.path then mergeDownloads rules localPaths rest st
      else
        let d := downloadFile st r.path
        let res := mergeDownloads rules localPaths rest d.1
        ⟨res.st, res.ok, d.2 ++ res.calls⟩

/-- `executeMerge(localPaths, remotes)`: incremental uploads, then — only
if no upload threw — incremental downloads. -/
def executeMerge (hash : Content → String) (rules : List String)
    (localPaths : List String) (remotes : List RemoteEntry) (st : SyncState) :
    RunResult :=
  let u := mergeUploads hash remotes localPaths st
  if u.ok then
    let d := mergeDownloads rules localPaths remotes u.st
    ⟨d.st, d.ok, u.calls ++ d.calls⟩
  else u

/-- The persisted plugin configuration (the fields the engine reads). -/
structure Settings where
  token : String
  repo : String
  branch : String
  excludedRules : List String
deriving DecidableEq

/-- `getAllFilesRecursively("")` over the flat local store: every stored
path that is not excluded.  Known divergence from the source's walker:
a directory excluded only by its regex (not as a prefix of its
descendants' paths) is pruned by the source, while this flat model keeps
descendants that are not excluded themselves; no theorem below depends
on which paths are enumerated. -/
def listLocalFiles (rules : List String) (fs : List (String × Content)) :
    List String :=
  (fs.map Prod.fst).filter (fun p => !(isExcluded rules p))

/-- `sync(mode)`: abort with a notice when token or repo is missing;
otherwise fetch the remote tree, enumerate local files, and dispatch on
the mode — `local_to_remote`, `remote_to_local`, and everything else
falls through to merge.  The surrounding `try`/`catch` only logs, so the
executor's outcome is the run's outcome. -/
def sync (hash : Content → String) (settings : Settings) (mode : String)
    (st : SyncState) : RunResult :=
  if settings.token == "" || settings.repo == "" then ⟨st, false, []⟩
  else
    let remotes := listRemote st.remoteFs
    let localPaths := listLocalFiles settings.excludedRules st.localFs
    let r :=
      if mode == "local_to_remote" then
        executePush hash settings.excludedRules localPaths remotes st
      else if mode == "remote_to_local" then
        executePull settings.excludedRules remotes st
      else
        executeMerge hash settings.excludedRules localPaths remotes st
    ⟨r.st, r.ok, ApiCall.fetchTree :: r.calls⟩

/-- The path an API call addresses (`none` for the tree listing). -/
def callPath : ApiCall → Option String
  | ApiCall.fetchTree => none
  | ApiCall.put p _ _ => some p
  | ApiCall.del p _ => some p
  | ApiCall.get p => some p

theorem findMapUpd (p : String) (c : Content) :
    ∀ fs : List (String × Content), fs.any (fun e => e.1 == p) = true →
      (fs.map (fun e => if e.1 == p then (p, c) else e)).find? (fun e => e.1 == p) =
        some (p, c)
  | [], h => by simp at h
  | e :: fs, h => by
      by_cases he : (e.1 == p) = true
      · simp only [List.map_cons, if_pos he, List.find?_cons]
        have h1 : ((p, c).1 == p) = true := by simp
        rw [h1]
      · have h2 : fs.any (fun e => e.1 == p) = true := by
          simp only [List.any_cons, he, Bool.false_or] at h
          exact h
        have he2 : (e.1 == p) = false := by simpa using he
        simp only [List.map_cons, if_neg he]
        rw [List.find?_cons, he2]
        exact findMapUpd p c fs h2

theorem lookupLocal_writeLocal_self (fs : List (String × Content)) (p : String)
    (c : Content) : lookupLocal (writeLocal fs p c) p = some c := by
  unfold writeLocal lookupLocal
  by_cases h : fs.any (fun e => e.1 == p) = true
  · rw [if_pos h, findMapUpd p c fs h]
    rfl
  · rw [if_neg h, List.find?_append]
    have hn : fs.find? (fun e => e.1 == p) = none := by
      rw [List.find?_eq_none]
      intro x hx hpx
      exact h (List.any_eq_true.mpr ⟨x, hx, hpx⟩)
    rw [hn]
    simp

theorem findMapUpd_ne (p q : String) (c : Content) (hne : q ≠ p) :
    ∀ fs : List (String × Content),
      (fs.map (fun e => if e.1 == p then (p, c) else e)).find? (fun e => e.1 == q) =
        fs.find? (fun e => e.1 == q)
  | [] => rfl
  | e :: fs => by
      have hpq : (p == q) = false := beq_eq_false_iff_ne.mpr (fun h => hne h.symm)
      by_cases he : (e.1 == p) = true
      · have hep : e.1 = p := by simpa using he
        have h1 : ((p, c).1 == q) = false := hpq
        have h2 : (e.1 == q) = false := by rw [hep]; exact hpq
        simp only [List.map_cons, if_pos he, List.find?_cons, h1, h2]
        exact findMapUpd_ne p q c hne fs
      · simp only [List.map_cons, if_neg he, List.find?_cons]
        cases heq : (e.1 == q) with
        | false => exact findMapUpd_ne p q c hne fs
        | true => rfl

theorem lookupLocal_writeLocal_ne (fs : List (String × Content)) (p q : String)
    (c : Content) (hne : q ≠ p) :
    lookupLocal (writeLocal fs p c) q = lookupLocal fs q := by
  unfold writeLocal lookupLocal
  by_cases h : fs.any (fun e => e.1 == p) = true
  · rw [if_pos h, findMapUpd_ne p q c hne fs]
  · rw [if_neg h, List.find?_append]
    have hpq : (p == q) = false := beq_eq_false_iff_ne.mpr (fun h => hne h.symm)
    have h1 : [(p, c)].find? (fun e => e.1 == q) = none := by
      simp only [List.find?_cons, List.find?_nil]
      have : ((p, c).1 == q) = false := hpq
      rw [this]
    rw [h1]
    cases fs.find? (fun e => e.1 == q) <;> rfl

theorem lookupLocal_writeLocal_isSome (fs : List (String × Content)) (p q : String)
    (c : Content) (h : (lookupLocal fs q).isSome = true) :
    (lookupLocal (writeLocal fs p c) q).isSome = true := by
  by_cases hq : q = p
  · subst hq
    rw [lookupLocal_writeLocal_self]
    rfl
  · rw [lookupLocal_writeLocal_ne fs p q c hq]
    exact h

theorem find?_key_eq {α : Type} (key : α → String) :
    ∀ l : List α, l.Pairwise (fun a b => key a ≠ key b) →
      ∀ e ∈ l, l.find? (fun x => key x == key e) = some e
  | [], _, e, he => by simp at he
  | a :: l, h, e, he => by
      rcases List.mem_cons.mp he with rfl | hel
      · rw [List.find?_cons, beq_self_eq_true]
      · have h1 : key a ≠ key e := (List.pairwise_cons.mp h).1 e hel
        rw [List.find?_cons, show (key a == key e) = false from beq_eq_false_iff_ne.mpr h1]
        exact find?_key_eq key l (List.pairwise_cons.mp h).2 e hel

theorem findRemoteUpd_self (p : String) (file : RemoteFile) (hfp : file.path = p) :
    ∀ fs : List RemoteFile, (fs.find? (fun g => g.path == p)).isSome = true →
      (fs.map (fun g => if g.path == p then file else g)).find?
        (fun g => g.path == p) = some file
  | [], h => by simp at h
  | g :: fs, h => by
      by_cases hg : (g.path == p) = true
      · simp only [List.map_cons, if_pos hg]
        rw [List.find?_cons, show (file.path == p) = true from by simp [hfp]]
      · have hg2 : (g.path == p) = false := by simpa using hg
        have h2 : (fs.find? (fun g => g.path == p)).isSome = true := by
          rw [List.find?_cons, hg2] at h
          exact h
        simp only [List.map_cons, if_neg hg]
        rw [List.find?_cons, hg2]
        exact findRemoteUpd_self p file hfp fs h2

theorem findRemoteUpd_ne (p q : String) (file : RemoteFile) (hfp : file.path = p)
    (hne : q ≠ p) :
    ∀ fs : List RemoteFile,
      (fs.map (fun g => if g.path == p then file else g)).find?
        (fun g => g.path == q) = fs.find? (fun g => g.path == q)
  | [] => rfl
  | g :: fs => by
      have hfq : (file.path == q) = false := by
        rw [hfp]
        exact beq_eq_false_iff_ne.mpr (fun h => hne h.symm)
      by_cases hg : (g.path == p) = true
      · have hgp : g.path = p := by simpa using hg
        have hgq : (g.path == q) = false := by
          rw [hgp]
          exact beq_eq_false_iff_ne.mpr (fun h => hne h.symm)
        simp only [List.map_cons, if_pos hg]
        rw [List.find?_cons, hfq, List.find?_cons, hgq]
        exact findRemoteUpd_ne p q file hfp hne fs
      · simp only [List.map_cons, if_neg hg]
        rw [List.find?_cons, List.find?_cons]
        cases hgq : (g.path == q) with
        | false => exact findRemoteUpd_ne p q file hfp hne fs
        | true => rfl

theorem putRemote_lookup_ne (hash : Content → String) (fs : List RemoteFile)
    (p : String) (c : Content) (sha : Option String) (fs2 : List RemoteFile)
    (hput : putRemote hash fs p c sha = some fs2) (q : String) (hne : q ≠ p) :
    lookupRemote fs2 q = lookupRemote fs q := by
  cases hl : lookupRemote fs p with
  | none =>
      cases sha with
      | none =>
          simp only [putRemote, hl] at hput
          cases hput
          unfold lookupRemote
          rw [List.find?_append]
          have h1 : [(⟨p, c, hash c⟩ : RemoteFile)].find? (fun g => g.path == q) = none := by
            simp only [List.find?_cons, List.find?_nil]
            rw [show ((⟨p, c, hash c⟩ : RemoteFile).path == q) = false from
              beq_eq_false_iff_ne.mpr (fun h => hne h.symm)]
          rw [h1]
          cases fs.find? (fun g => g.path == q) <;> rfl
      | some s =>
          simp only [putRemote, hl] at hput
          exact Option.noConfusion hput
  | some f =>
      cases sha with
      | none =>
          simp only [putRemote, hl] at hput
          exact Option.noConfusion hput
      | some s =>
          simp only [putRemote, hl] at hput
          by_cases hsha : f.sha = s
          · rw [if_pos hsha] at hput
            cases hput
            unfold lookupRemote
            exact findRemoteUpd_ne p q ⟨p, c, hash c⟩ rfl hne fs
          · rw [if_neg hsha] at hput
            cases hput

theorem putRemote_lookup_isSome (hash : Content → String) (fs : List RemoteFile)
    (p : String) (c : Content) (sha : Option String) (fs2 : List RemoteFile)
    (hput : putRemote hash fs p c sha = some fs2) (q : String)
    (h : (lookupRemote fs q).isSome = true) :
    (lookupRemote fs2 q).isSome = true := by
  by_cases hq : q = p
  · subst hq
    cases hl : lookupRemote fs q with
    | none => rw [hl] at h; simp at h
    | some f =>
        cases sha with
        | none =>
            simp only [putRemote, hl] at hput
            exact Option.noConfusion hput
        | some s =>
            simp only [putRemote, hl] at hput
            by_cases hsha : f.sha = s
            · rw [if_pos hsha] at hput
              cases hput
              unfold lookupRemote at h ⊢
              rw [findRemoteUpd_self q ⟨q, c, hash c⟩ rfl fs h]
              rfl
            · rw [if_neg hsha] at hput
              cases hput
  · rw [putRemote_lookup_ne hash fs p c sha fs2 hput q hq]
    exact h

theorem downloadFile_remote (st : SyncState) (p : String) :
    (downloadFile st p).1.remoteFs = st.remoteFs := by
  cases h : getRemote st.remoteFs p with
  | none => simp [downloadFile, h]
  | some cp => cases cp with | mk c s => simp [downloadFile, h]

theorem downloadFile_calls (st : SyncState) (p : String) :
    (downloadFile st p).2 = [ApiCall.get p] := by
  cases h : getRemote st.remoteFs p with
  | none => simp [downloadFile, h]
  | some cp => cases cp with | mk c s => simp [downloadFile, h]

theorem downloadFile_local_ne (st : SyncState) (p q : String) (hne : q ≠ p) :
    lookupLocal (downloadFile st p).1.localFs q = lookupLocal st.localFs q := by
  cases h : getRemote st.remoteFs p with
  | none => simp [downloadFile, h]
  | some cp =>
      cases cp with
      | mk c s => simp [downloadFile, h, lookupLocal_writeLocal_ne _ _ _ _ hne]

theorem downloadFile_local_isSome (st : SyncState) (p q : String)
    (h : (lookupLocal st.localFs q).isSome = true) :
    (lookupLocal (downloadFile st p).1.localFs q).isSome = true := by
  cases hg : getRemote st.remoteFs p with
  | none => simpa [downloadFile, hg] using h
  | some cp =>
      cases cp with
      | mk c s =>
          simp only [downloadFile, hg]
          exact lookupLocal_writeLocal_isSome _ _ _ _ h

theorem downloadFile_local_self (st : SyncState) (p : String) (c : Content)
    (s : String) (hg : getRemote st.remoteFs p = some (c, s)) :
    lookupLocal (downloadFile st p).1.localFs p = some c := by
  simp [downloadFile, hg, lookupLocal_writeLocal_self]

theorem executePull_remote (rules : List String) :
    ∀ (rs : List RemoteEntry) (st : SyncState),
      (executePull rules rs st).st.remoteFs = st.remoteFs
  | [], _ => rfl
  | r :: rest, st => by
      unfold executePull
      by_cases h : isExcluded rules r.path = true
      · rw [if_pos h]
        exact executePull_remote rules rest st
      · rw [if_neg h]
        show (executePull rules rest (downloadFile st r.path).1).st.remoteFs = _
        rw [executePull_remote rules rest _, downloadFile_remote]

theorem executePull_ok (rules : List String) :
    ∀ (rs : List RemoteEntry) (st : SyncState), (executePull rules rs st).ok = true
  | [], _ => rfl
  | r :: rest, st => by
      unfold executePull
      by_cases h : isExcluded rules r.path = true
      · rw [if_pos h]
        exact executePull_ok rules rest st
      · rw [if_neg h]
        exact executePull_ok rules rest _

theorem executePull_calls (rules : List String) :
    ∀ (rs : List RemoteEntry) (st : SyncState),
      (executePull rules rs st).calls =
        (rs.filter (fun r => !(isExcluded rules r.path))).map
          (fun r => ApiCall.get r.path)
  | [], _ => rfl
  | r :: rest, st => by
      unfold executePull
      by_cases h : isExcluded rules r.path = true
      · rw [if_pos h, executePull_calls rules rest st]
        simp [List.filter_cons, h]
      · have h2 : isExcluded rules r.path = false := by simpa using h
        rw [if_neg h]
        show (downloadFile st r.path).2 ++
            (executePull rules rest (downloadFile st r.path).1).calls = _
        rw [downloadFile_calls, executePull_calls rules rest _]
        simp [List.filter_cons, h2]

theorem executePull_local_ne (rules : List String) :
    ∀ (rs : List RemoteEntry) (st : SyncState) (q : String),
      (∀ r ∈ rs, r.path ≠ q) →
      lookupLocal (executePull rules rs st).st.localFs q = lookupLocal st.localFs q
  | [], _, _, _ => rfl
  | r :: rest, st, q, hq => by
      unfold executePull
      by_cases h : isExcluded rules r.path = true
      · rw [if_pos h]
        exact executePull_local_ne rules rest st q (fun x hx => hq x (by simp [hx]))
      · rw [if_neg h]
        show lookupLocal (executePull rules rest (downloadFile st r.path).1).st.localFs q = _
        rw [executePull_local_ne rules rest _ q (fun x hx => hq x (by simp [hx])),
          downloadFile_local_ne st r.path q (fun he => hq r (by simp) he.symm)]

theorem executePull_local_isSome (rules : List String) :
    ∀ (rs : List RemoteEntry) (st : SyncState) (q : String),
      (lookupLocal st.localFs q).isSome = true →
      (lookupLocal (executePull rules rs st).st.localFs q).isSome = true
  | [], _, _, h => h
  | r :: rest, st, q, h => by
      unfold executePull
      by_cases hx : isExcluded rules r.path = true
      · rw [if_pos hx]
        exact executePull_local_isSome rules rest st q h
      · rw [if_neg hx]
        exact executePull_local_isSome rules rest _ q
          (downloadFile_local_isSome st r.path q h)

theorem executePull_downloads (rules : List String) :
    ∀ (rs : List RemoteEntry) (st : SyncState),
      rs.Pairwise (fun a b => a.path ≠ b.path) →
      ∀ r ∈ rs, isExcluded rules r.path = false →
        lookupLocal (executePull rules rs st).st.localFs r.path =
          (match getRemote st.remoteFs r.path with
           | some cs => some cs.1
           | none => lookupLocal st.localFs r.path)
  | [], _, _, r, hr, _ => by simp at hr
  | r0 :: rest, st, hp, r, hr, hexc => by
      have hp1 := (List.pairwise_cons.mp hp).1
      have hp2 := (List.pairwise_cons.mp hp).2
      rcases List.mem_cons.mp hr with rfl | hrest
      · unfold executePull
        rw [if_neg (by simp [hexc])]
        show lookupLocal (executePull rules rest (downloadFile st r.path).1).st.localFs r.path = _
        rw [executePull_local_ne rules rest _ r.path
          (fun x hx => (hp1 x hx).symm)]
        cases hg : getRemote st.remoteFs r.path with
        | none =>
            have hdl : (downloadFile st r.path).1 = st := by simp [downloadFile, hg]
            rw [hdl]
        | some cp =>
            cases cp with
            | mk c s => exact downloadFile_local_self st r.path c s hg
      · unfold executePull
        by_cases hx : isExcluded rules r0.path = true
        · rw [if_pos hx]
          exact executePull_downloads rules rest st hp2 r hrest hexc
        · rw [if_neg hx]
          have hne : r.path ≠ r0.path := fun he => (hp1 r hrest) he.symm
          rw [executePull_downloads rules rest (downloadFile st r0.path).1 hp2 r hrest hexc,
            downloadFile_remote, downloadFile_local_ne st r0.path r.path hne]

/-- A concrete content hash for witnesses. -/
def sampleHash : Content → String := fun _ => "newsha"

/-- The spec's scenario state: local `notes/a.md`, `notes/b.md`; remote
`notes/a.md` (tokenA) and `notes/c.md` (tokenC). -/
def sampleState : SyncState :=
  ⟨[("notes/a.md", [1]), ("notes/b.md", [2])],
   [⟨"notes/a.md", [9], "tokenA"⟩, ⟨"notes/c.md", [7], "tokenC"⟩]⟩

/-- C5: the RemoteToLocal strategy downloads and writes locally every
non-excluded remote entry (overwriting any existing local file at that
path unconditionally), performs no local deletion (paths with no remote
counterpart keep their contents, and no existing local path disappears),
issues only GET requests, and leaves the remote untouched. -/
theorem executePull_correct (rules : List String) (st : SyncState)
    (hu : st.remoteFs.Pairwise (fun a b => a.path ≠ b.path)) :
    (∀ f ∈ st.remoteFs, isExcluded rules f.path = false →
      lookupLocal (executePull rules (listRemote st.remoteFs) st).st.localFs f.path =
        some f.content) ∧
    (∀ q : String, (∀ f ∈ st.remoteFs, f.path ≠ q) →
      lookupLocal (executePull rules (listRemote st.remoteFs) st).st.localFs q =
        lookupLocal st.localFs q) ∧
    (∀ q : String, (lookupLocal st.localFs q).isSome = true →
      (lookupLocal (executePull rules (listRemote st.remoteFs) st).st.localFs q).isSome
        = true) ∧
    (∀ a ∈ (executePull rules (listRemote st.remoteFs) st).calls,
      ∃ q, a = ApiCall.get q) ∧
    (executePull rules (listRemote st.remoteFs) st).st.remoteFs = st.remoteFs := by
  have hup : (listRemote st.remoteFs).Pairwise
      (fun a b : RemoteEntry => a.path ≠ b.path) := by
    unfold listRemote
    refine List.Pairwise.map _ ?_ hu
    intro a b h
    exact h
  refine ⟨?_, ?_, ?_, ?_, executePull_remote rules _ st⟩
  · intro f hf hexc
    have hr : (⟨f.path, f.sha⟩ : RemoteEntry) ∈ listRemote st.remoteFs :=
      List.mem_map.mpr ⟨f, hf, rfl⟩
    have hg : getRemote st.remoteFs f.path = some (f.content, f.sha) := by
      unfold getRemote lookupRemote
      rw [find?_key_eq RemoteFile.path st.remoteFs hu f hf]
      rfl
    have hd := executePull_downloads rules (listRemote st.remoteFs) st hup
      ⟨f.path, f.sha⟩ hr hexc
    rw [hg] at hd
    exact hd
  · intro q hq
    refine executePull_local_ne rules _ st q ?_
    intro r hrm
    rcases List.mem_map.mp hrm with ⟨f, hf, rfl⟩
    exact hq f hf
  · intro q h
    exact executePull_local_isSome rules _ st q h
  · intro a ha
    rw [executePull_calls] at ha
    rcases List.mem_map.mp ha with ⟨r, _, rfl⟩
    exact ⟨r.path, rfl⟩

theorem executePull_correct_witness :
    lookupLocal (executePull [] (listRemote sampleState.remoteFs)
        sampleState).st.localFs "notes/a.md" = some [9] ∧
    lookupLocal (executePull [] (listRemote sampleState.remoteFs)
        sampleState).st.localFs "notes/b.md" =
      lookupLocal sampleState.localFs "notes/b.md" :=
  ⟨(executePull_correct [] sampleState (by decide)).1
      ⟨"notes/a.md", [9], "tokenA"⟩ (by decide) (by decide),
   (executePull_correct [] sampleState (by decide)).2.1 "notes/b.md" (by decide)⟩

theorem mergeUploads_local (hash : Content → String) (remotes : List RemoteEntry) :
    ∀ (ps : List String) (st : SyncState),
      (mergeUploads hash remotes ps st).st.localFs = st.localFs
  | [], _ => rfl
  | p :: rest, st => by
      unfold mergeUploads
      cases hf : remotes.find? (fun r => r.path == p) with
      | some e => exact mergeUploads_local hash remotes rest st
      | none =>
          cases hl : lookupLocal st.localFs p with
          | none => rfl
          | some c =>
              simp only [uploadFile]
              cases hp : putRemote hash st.remoteFs p c none with
              | none => rfl
              | some rfs => exact mergeUploads_local hash remotes rest _

theorem mergeUploads_remote_frame (hash : Content → String)
    (remotes : List RemoteEntry) :
    ∀ (ps : List String) (st : SyncState) (q : String),
      (remotes.find? (fun r => r.path == q)).isSome = true →
      lookupRemote (mergeUploads hash remotes ps st).st.remoteFs q =
        lookupRemote st.remoteFs q
  | [], _, _, _ => rfl
  | p :: rest, st, q, hq => by
      unfold mergeUploads
      cases hf : remotes.find? (fun r => r.path == p) with
      | some e => exact mergeUploads_remote_frame hash remotes rest st q hq
      | none =>
          have hne : q ≠ p := by
            intro he
            rw [he, hf] at hq
            simp at hq
          cases hl : lookupLocal st.localFs p with
          | none => rfl
          | some c =>
              simp only [uploadFile]
              cases hp : putRemote hash st.remoteFs p c none with
              | none => rfl
              | some rfs =>
                  rw [mergeUploads_remote_frame hash remotes rest _ q hq]
                  exact putRemote_lookup_ne hash st.remoteFs p c none rfs hp q hne

theorem mergeUploads_calls_frame (hash : Content → String)
    (remotes : List RemoteEntry) :
    ∀ (ps : List String) (st : SyncState) (q : String),
      (remotes.find? (fun r => r.path == q)).isSome = true →
      ∀ a ∈ (mergeUploads hash remotes ps st).calls, callPath a ≠ some q
  | [], _, _, _, a, ha => absurd ha (List.not_mem_nil a)
  | p :: rest, st, q, hq, a, ha => by
      have hgen : ∀ st2 : SyncState, a ∈ (mergeUploads hash remotes rest st2).calls →
          callPath a ≠ some q :=
        fun st2 ha2 => mergeUploads_calls_frame hash remotes rest st2 q hq a ha2
      rw [mergeUploads] at ha
      cases hf : remotes.find? (fun r => r.path == p) with
      | some e =>
          rw [hf] at ha
          exact hgen st ha
      | none =>
          have hne : q ≠ p := by
            intro he
            rw [he, hf] at hq
            simp at hq
          rw [hf] at ha
          cases hl : lookupLocal st.localFs p with
          | none =>
              rw [hl] at ha
              simp at ha
          | some c =>
              rw [hl] at ha
              simp only [uploadFile] at ha
              cases hp : putRemote hash st.remoteFs p c none with
              | none =>
                  rw [hp] at ha
                  have : a = ApiCall.put p none c := by simpa using ha
                  subst this
                  simp [callPath]
                  exact fun he => hne he.symm
              | some rfs =>
                  rw [hp] at ha
                  rcases List.mem_cons.mp ha with rfl | ha2
                  · simp [callPath]
                    exact fun he => hne he.symm
                  · exact hgen _ ha2

theorem mergeUploads_remote_isSome (hash : Content → String)
    (remotes : List RemoteEntry) :
    ∀ (ps : List String) (st : SyncState) (q : String),
      (lookupRemote st.remoteFs q).isSome = true →
      (lookupRemote (mergeUploads hash remotes ps st).st.remoteFs q).isSome = true
  | [], _, _, h => h
  | p :: rest, st, q, h => by
      unfold mergeUploads
      cases hf : remotes.find? (fun r => r.path == p) with
      | some e => exact mergeUploads_remote_isSome hash remotes rest st q h
      | none =>
          cases hl : lookupLocal st.localFs p with
          | none => exact h
          | some c =>
              simp only [uploadFile]
              cases hp : putRemote hash st.remoteFs p c none with
              | none => exact h
              | some rfs =>
                  exact mergeUploads_remote_isSome hash remotes rest _ q
                    (putRemote_lookup_isSome hash st.remoteFs p c none rfs hp q h)

theorem mergeUploads_calls_put (hash : Content → String)
    (remotes : List RemoteEntry) :
    ∀ (ps : List String) (st : SyncState),
      ∀ a ∈ (mergeUploads hash remotes ps st).calls, ∃ p c, a = ApiCall.put p none c
  | [], _, a, ha => absurd ha (List.not_mem_nil a)
  | p :: rest, st, a, ha => by
      rw [mergeUploads] at ha
      cases hf : remotes.find? (fun r => r.path == p) with
      | some e =>
          rw [hf] at ha
          exact mergeUploads_calls_put hash remotes rest st a ha
      | none =>
          rw [hf] at ha
          cases hl : lookupLocal st.localFs p with
          | none =>
              rw [hl] at ha
              simp at ha
          | some c =>
              rw [hl] at ha
              simp only [uploadFile] at ha
              cases hp : putRemote hash st.remoteFs p c none with
              | none =>
                  rw [hp] at ha
                  have : a = ApiCall.put p none c := by simpa using ha
                  exact ⟨p, c, this⟩
              | some rfs =>
                  rw [hp] at ha
                  rcases List.mem_cons.mp ha with rfl | ha2
                  · exact ⟨p, c, rfl⟩
                  · exact mergeUploads_calls_put hash remotes rest _ a ha2

theorem mergeDownloads_remote (rules localPaths : List String) :
    ∀ (rs : List RemoteEntry) (st : SyncState),
      (mergeDownloads rules localPaths rs st).st.remoteFs = st.remoteFs
  | [], _ => rfl
  | r :: rest, st => by
      unfold mergeDownloads
      by_cases h1 : isExcluded rules r.path = true
      · rw [if_pos h1]
        exact mergeDownloads_remote rules localPaths rest st
      · rw [if_neg h1]
        by_cases h2 : localPaths.contains r.path = true
        · rw [if_pos h2]
          exact mergeDownloads_remote rules localPaths rest st
        · rw [if_neg h2]
          show (mergeDownloads rules localPaths rest (downloadFile st r.path).1).st.remoteFs = _
          rw [mergeDownloads_remote rules localPaths rest _, downloadFile_remote]

theorem mergeDownloads_ok (rules localPaths : List String) :
    ∀ (rs : List RemoteEntry) (st : SyncState),
      (mergeDownloads rules localPaths rs st).ok = true
  | [], _ => rfl
  | r :: rest, st => by
      unfold mergeDownloads
      by_cases h1 : isExcluded rules r.path = true
      · rw [if_pos h1]
        exact mergeDownloads_ok rules localPaths rest st
      · rw [if_neg h1]
        by_cases h2 : localPaths.contains r.path = true
        · rw [if_pos h2]
          exact mergeDownloads_ok rules localPaths rest st
        · rw [if_neg h2]
          exact mergeDownloads_ok rules localPaths rest _

theorem mergeDownloads_calls (rules localPaths : List String) :
    ∀ (rs : List RemoteEntry) (st : SyncState),
      (mergeDownloads rules localPaths rs st).calls =
        (rs.filter (fun r =>
          !(isExcluded rules r.path) && !(localPaths.contains r.path))).map
          (fun r => ApiCall.get r.path)
  | [], _ => rfl
  | r :: rest, st => by
      unfold mergeDownloads
      by_cases h1 : isExcluded rules r.path = true
      · rw [if_pos h1, mergeDownloads_calls rules localPaths rest st]
        simp [List.filter_cons, h1]
      · have h1f : isExcluded rules r.path = false := by simpa using h1
        rw [if_neg h1]
        by_cases h2 : localPaths.contains r.path = true
        · rw [if_pos h2, mergeDownloads_calls rules localPaths rest st]
          have hmem : r.path ∈ localPaths := List.mem_of_elem_eq_true h2
          simp [List.filter_cons, h1f, hmem]
        · have h2f : localPaths.contains r.path = false := by simpa using h2
          rw [if_neg h2]
          show (downloadFile st r.path).2 ++
            (mergeDownloads rules localPaths rest (downloadFile st r.path).1).calls = _
          rw [downloadFile_calls, mergeDownloads_calls rules localPaths rest _]
          have hnmem : r.path ∉ localPaths := fun hm => h2 (List.elem_eq_true_of_mem hm)
          simp [List.filter_cons, h1f, hnmem]

theorem mergeDownloads_local_mem (rules localPaths : List String) :
    ∀ (rs : List RemoteEntry) (st : SyncState) (q : String), q ∈ localPaths →
      lookupLocal (mergeDownloads rules localPaths rs st).st.localFs q =
        lookupLocal st.localFs q
  | [], _, _, _ => rfl
  | r :: rest, st, q, hq => by
      unfold mergeDownloads
      by_cases h1 : isExcluded rules r.path = true
      · rw [if_pos h1]
        exact mergeDownloads_local_mem rules localPaths rest st q hq
      · rw [if_neg h1]
        by_cases h2 : localPaths.contains r.path = true
        · rw [if_pos h2]
          exact mergeDownloads_local_mem rules localPaths rest st q hq
        · rw [if_neg h2]
          have hne : q ≠ r.path := by
            intro he
            rw [← he] at h2
            exact h2 (List.elem_eq_true_of_mem hq)
          show lookupLocal
            (mergeDownloads rules localPaths rest (downloadFile st r.path).1).st.localFs q = _
          rw [mergeDownloads_local_mem rules localPaths rest _ q hq,
            downloadFile_local_ne st r.path q hne]

theorem mergeDownloads_local_isSome (rules localPaths : List String) :
    ∀ (rs : List RemoteEntry) (st : SyncState) (q : String),
      (lookupLocal st.localFs q).isSome = true →
      (lookupLocal (mergeDownloads rules localPaths rs st).st.localFs q).isSome = true
  | [], _, _, h => h
  | r :: rest, st, q, h => by
      unfold mergeDownloads
      by_cases h1 : isExcluded rules r.path = true
      · rw [if_pos h1]
        exact mergeDownloads_local_isSome rules localPaths rest st q h
      · rw [if_neg h1]
        by_cases h2 : localPaths.contains r.path = true
        · rw [if_pos h2]
          exact mergeDownloads_local_isSome rules localPaths rest st q h
        · rw [if_neg h2]
          exact mergeDownloads_local_isSome rules localPaths rest _ q
            (downloadFile_local_isSome st r.path q h)

/-- C6: for every path P present in both the local path list and the
tree listing a Merge run was planned from, the run neither uploads nor
downloads P: no API call addresses P, and P's local content and remote
entry are unchanged by the run. -/
theorem executeMerge_untouched (hash : Content → String)
    (rules localPaths : List String) (remotes : List RemoteEntry) (st : SyncState)
    (p : String) (hp : p ∈ localPaths) (he : ∃ e ∈ remotes, e.path = p) :
    (∀ a ∈ (executeMerge hash rules localPaths remotes st).calls,
      callPath a ≠ some p) ∧
    lookupLocal (executeMerge hash rules localPaths remotes st).st.localFs p =
      lookupLocal st.localFs p ∧
    lookupRemote (executeMerge hash rules localPaths remotes st).st.remoteFs p =
      lookupRemote st.remoteFs p := by
  have hfind : (remotes.find? (fun r => r.path == p)).isSome = true := by
    rw [List.find?_isSome]
    rcases he with ⟨e, hel, hep⟩
    exact ⟨e, hel, by simp [hep]⟩
  simp only [executeMerge]
  by_cases hok : (mergeUploads hash remotes localPaths st).ok = true
  · rw [if_pos hok]
    refine ⟨?_, ?_, ?_⟩
    · intro a ha
      rcases List.mem_append.mp ha with h | h
      · exact mergeUploads_calls_frame hash remotes localPaths st p hfind a h
      · rw [mergeDownloads_calls] at h
        rcases List.mem_map.mp h with ⟨r, hrf, rfl⟩
        have hpred := (List.mem_filter.mp hrf).2
        simp only [Bool.and_eq_true, Bool.not_eq_eq_eq_not, Bool.not_true] at hpred
        intro hcp
        have hrp : r.path = p := by simpa [callPath] using hcp
        have : localPaths.contains r.path = true := by
          rw [hrp]
          exact List.elem_eq_true_of_mem hp
        rw [this] at hpred
        simp at hpred
    · rw [mergeDownloads_local_mem rules localPaths remotes _ p hp,
        mergeUploads_local]
    · rw [mergeDownloads_remote,
        mergeUploads_remote_frame hash remotes localPaths st p hfind]
  · rw [if_neg hok]
    exact ⟨fun a ha => mergeUploads_calls_frame hash remotes localPaths st p hfind a ha,
      by rw [mergeUploads_local],
      mergeUploads_remote_frame hash remotes localPaths st p hfind⟩

theorem executeMerge_untouched_witness :
    lookupLocal (executeMerge sampleHash [] ["notes/a.md", "notes/b.md"]
        (listRemote sampleState.remoteFs) sampleState).st.localFs "notes/a.md" =
      lookupLocal sampleState.localFs "notes/a.md" ∧
    lookupRemote (executeMerge sampleHash [] ["notes/a.md", "notes/b.md"]
        (listRemote sampleState.remoteFs) sampleState).st.remoteFs "notes/a.md" =
      lookupRemote sampleState.remoteFs "notes/a.md" :=
  ⟨(executeMerge_untouched sampleHash [] ["notes/a.md", "notes/b.md"]
      (listRemote sampleState.remoteFs) sampleState "notes/a.md" (by decide)
      ⟨⟨"notes/a.md", "tokenA"⟩, by decide, rfl⟩).2.1,
   (executeMerge_untouched sampleHash [] ["notes/a.md", "notes/b.md"]
      (listRemote sampleState.remoteFs) sampleState "notes/a.md" (by decide)
      ⟨⟨"notes/a.md", "tokenA"⟩, by decide, rfl⟩).2.2⟩

/-- C7: a Merge run never issues a delete request on either side: the
trace contains no DELETE call, every remote path present before the run
is still present after it, and every local path present before the run
is still present after it. -/
theorem executeMerge_never_deletes (hash : Content → String)
    (rules localPaths : List String) (remotes : List RemoteEntry) (st : SyncState) :
    (∀ a ∈ (executeMerge hash rules localPaths remotes st).calls,
      ∀ q s, a ≠ ApiCall.del q s) ∧
    (∀ q, (lookupRemote st.remoteFs q).isSome = true →
      (lookupRemote (executeMerge hash rules localPaths remotes st).st.remoteFs q).isSome
        = true) ∧
    (∀ q, (lookupLocal st.localFs q).isSome = true →
      (lookupLocal (executeMerge hash rules localPaths remotes st).st.localFs q).isSome
        = true) := by
  simp only [executeMerge]
  by_cases hok : (mergeUploads hash remotes localPaths st).ok = true
  · rw [if_pos hok]
    refine ⟨?_, ?_, ?_⟩
    · intro a ha q s
      rcases List.mem_append.mp ha with h | h
      · rcases mergeUploads_calls_put hash remotes localPaths st a h with ⟨p2, c2, rfl⟩
        simp
      · rw [mergeDownloads_calls] at h
        rcases List.mem_map.mp h with ⟨r, _, rfl⟩
        simp
    · intro q h
      rw [mergeDownloads_remote]
      exact mergeUploads_remote_isSome hash remotes localPaths st q h
    · intro q h
      refine mergeDownloads_local_isSome rules localPaths remotes _ q ?_
      rw [mergeUploads_local]
      exact h
  · rw [if_neg hok]
    refine ⟨?_, ?_, ?_⟩
    · intro a ha q s
      rcases mergeUploads_calls_put hash remotes localPaths st a ha with ⟨p2, c2, rfl⟩
      simp
    · exact fun q h => mergeUploads_remote_isSome hash remotes localPaths st q h
    · intro q h
      rw [mergeUploads_local]
      exact h

theorem executeMerge_never_deletes_witness :
    (lookupRemote (executeMerge sampleHash [] ["notes/a.md", "notes/b.md"]
        (listRemote sampleState.remoteFs) sampleState).st.remoteFs
      "notes/c.md").isSome = true ∧
    (lookupLocal (executeMerge sampleHash [] ["notes/a.md", "notes/b.md"]
        (listRemote sampleState.remoteFs) sampleState).st.localFs
      "notes/b.md").isSome = true :=
  ⟨(executeMerge_never_deletes sampleHash [] ["notes/a.md", "notes/b.md"]
      (listRemote sampleState.remoteFs) sampleState).2.1 "notes/c.md" (by decide),
   (executeMerge_never_deletes sampleHash [] ["notes/a.md", "notes/b.md"]
      (listRemote sampleState.remoteFs) sampleState).2.2 "notes/b.md" (by decide)⟩

/-- C1, counterexample: a Merge run planned from a stale (empty) tree
listing against a remote that already holds `a`.  The planned operations
are the uploads of `a` and of `b`.  The upload of `a` is sent without a
token, the remote rejects it (conflicting token / create on existing
path), `uploadFile` has no catch, and the run aborts: the planned upload
of `b` is never attempted (no PUT for `b` in the trace, `b` absent from
the remote afterwards), refuting "a failing upload during a Merge run
does not abort the run". -/
theorem merge_upload_failure_aborts :
    (executeMerge sampleHash [] ["a", "b"] []
        ⟨[("a", [1]), ("b", [2])], [⟨"a", [9], "S"⟩]⟩).ok = false ∧
    (executeMerge sampleHash [] ["a", "b"] []
        ⟨[("a", [1]), ("b", [2])], [⟨"a", [9], "S"⟩]⟩).calls =
      [ApiCall.put "a" none [1]] ∧
    lookupRemote (executeMerge sampleHash [] ["a", "b"] []
        ⟨[("a", [1]), ("b", [2])], [⟨"a", [9], "S"⟩]⟩).st.remoteFs "b" = none := by
  decide

theorem pushUploads_cons (hash : Content → String) (remotes : List RemoteEntry)
    (p : String) (rest : List String) (st : SyncState) :
    pushUploads hash remotes (p :: rest) st =
      match lookupLocal st.localFs p with
      | none => ⟨st, false, []⟩
      | some c =>
          match putRemote hash st.remoteFs p c
              ((remotes.find? (fun r => r.path == p)).map RemoteEntry.sha) with
          | none =>
              ⟨(pushUploads hash remotes rest st).st,
               (pushUploads hash remotes rest st).ok,
               ApiCall.put p ((remotes.find? (fun r => r.path == p)).map RemoteEntry.sha)
                 c :: (pushUploads hash remotes rest st).calls⟩
          | some rfs =>
              ⟨(pushUploads hash remotes rest { st with remoteFs := rfs }).st,
               (pushUploads hash remotes rest { st with remoteFs := rfs }).ok,
               ApiCall.put p ((remotes.find? (fun r => r.path == p)).map RemoteEntry.sha)
                 c :: (pushUploads hash remotes rest { st with remoteFs := rfs }).calls⟩ :=
  rfl

theorem pushUploads_local (hash : Content → String) (remotes : List RemoteEntry) :
    ∀ (ps : List String) (st : SyncState),
      (pushUploads hash remotes ps st).st.localFs = st.localFs
  | [], _ => rfl
  | p :: rest, st => by
      rw [pushUploads_cons]
      split
      · rfl
      · split
        · exact pushUploads_local hash remotes rest st
        · exact pushUploads_local hash remotes rest _

theorem pushUploads_calls (hash : Content → String) (remotes : List RemoteEntry) :
    ∀ (ps : List String) (st : SyncState),
      (∀ p ∈ ps, (lookupLocal st.localFs p).isSome = true) →
      (pushUploads hash remotes ps st).ok = true ∧
      (pushUploads hash remotes ps st).calls =
        ps.map (fun p => ApiCall.put p
          ((remotes.find? (fun r => r.path == p)).map RemoteEntry.sha)
          ((lookupLocal st.localFs p).getD []))
  | [], _, _ => ⟨rfl, rfl⟩
  | p :: rest, st, hread => by
      have hrest : ∀ x ∈ rest, (lookupLocal st.localFs x).isSome = true :=
        fun x hx => hread x (by simp [hx])
      rw [pushUploads_cons]
      split
      · rename_i hl
        exfalso
        have h1 := hread p (by simp)
        rw [hl] at h1
        simp at h1
      · rename_i c hl
        split
        · obtain ⟨hok, hcalls⟩ := pushUploads_calls hash remotes rest st hrest
          refine ⟨hok, ?_⟩
          rw [List.map_cons, hl]
          show ApiCall.put p _ c :: (pushUploads hash remotes rest st).calls = _
          rw [hcalls]
          rfl
        · rename_i rfs hp
          obtain ⟨hok, hcalls⟩ :=
            pushUploads_calls hash remotes rest { st with remoteFs := rfs } hrest
          refine ⟨hok, ?_⟩
          rw [List.map_cons, hl]
          show ApiCall.put p _ c ::
            (pushUploads hash remotes rest { st with remoteFs := rfs }).calls = _
          rw [hcalls]
          rfl

theorem pushDeletes_cons (r : RemoteEntry) (rest : List RemoteEntry) (st : SyncState) :
    pushDeletes (r :: rest) st =
      match deleteRemote st.remoteFs r.path r.sha with
      | none =>
          ⟨(pushDeletes rest st).st, (pushDeletes rest st).ok,
           ApiCall.del r.path r.sha :: (pushDeletes rest st).calls⟩
      | some rfs =>
          ⟨(pushDeletes rest { st with remoteFs := rfs }).st,
           (pushDeletes rest { st with remoteFs := rfs }).ok,
           ApiCall.del r.path r.sha :: (pushDeletes rest { st with remoteFs := rfs }).calls⟩ :=
  rfl

theorem pushDeletes_ok_calls :
    ∀ (rs : List RemoteEntry) (st : SyncState),
      (pushDeletes rs st).ok = true ∧
      (pushDeletes rs st).calls = rs.map (fun r => ApiCall.del r.path r.sha)
  | [], _ => ⟨rfl, rfl⟩
  | r :: rest, st => by
      rw [pushDeletes_cons]
      split
      · obtain ⟨hok, hcalls⟩ := pushDeletes_ok_calls rest st
        exact ⟨hok, by rw [List.map_cons, ← hcalls]⟩
      · rename_i rfs hd
        obtain ⟨hok, hcalls⟩ := pushDeletes_ok_calls rest { st with remoteFs := rfs }
        exact ⟨hok, by rw [List.map_cons, ← hcalls]⟩

theorem executePush_calls (hash : Content → String) (rules localPaths : List String)
    (remotes : List RemoteEntry) (st : SyncState)
    (hread : ∀ p ∈ localPaths, (lookupLocal st.localFs p).isSome = true) :
    (executePush hash rules localPaths remotes st).ok = true ∧
    (executePush hash rules localPaths remotes st).calls =
      localPaths.map (fun p => ApiCall.put p
        ((remotes.find? (fun r => r.path == p)).map RemoteEntry.sha)
        ((lookupLocal st.localFs p).getD [])) ++
      (remotes.filter (fun r =>
        !(localPaths.contains r.path) && !(isExcluded rules r.path))).map
        (fun r => ApiCall.del r.path r.sha) := by
  obtain ⟨hok, hcalls⟩ := pushUploads_calls hash remotes localPaths st hread
  simp only [executePush]
  rw [if_pos hok]
  obtain ⟨hok2, hcalls2⟩ := pushDeletes_ok_calls
    (remotes.filter (fun r =>
      !(localPaths.contains r.path) && !(isExcluded rules r.path)))
    (pushUploads hash remotes localPaths st).st
  exact ⟨hok2, by rw [hcalls, hcalls2]⟩

/-- C1 (amended): per-file transfer failures are caught individually in
the LocalToRemote upload and delete loops and in every download
(RemoteToLocal and the Merge download phase): those loops issue every
planned request and complete regardless of individual failures (the
LocalToRemote run completes whenever its local reads succeed).  A
failing upload during a Merge run, however, aborts the run and the
remaining planned operations are skipped (see the counterexample). -/
theorem transfer_failures_contained :
    (∀ (hash : Content → String) (rules localPaths : List String)
        (remotes : List RemoteEntry) (st : SyncState),
      (∀ p ∈ localPaths, (lookupLocal st.localFs p).isSome = true) →
      (executePush hash rules localPaths remotes st).ok = true ∧
      (executePush hash rules localPaths remotes st).calls =
        localPaths.map (fun p => ApiCall.put p
          ((remotes.find? (fun r => r.path == p)).map RemoteEntry.sha)
          ((lookupLocal st.localFs p).getD [])) ++
        (remotes.filter (fun r =>
          !(localPaths.contains r.path) && !(isExcluded rules r.path))).map
          (fun r => ApiCall.del r.path r.sha)) ∧
    (∀ (rules : List String) (rs : List RemoteEntry) (st : SyncState),
      (executePull rules rs st).ok = true ∧
      (executePull rules rs st).calls =
        (rs.filter (fun r => !(isExcluded rules r.path))).map
          (fun r => ApiCall.get r.path)) ∧
    (∀ (rules localPaths : List String) (rs : List RemoteEntry) (st : SyncState),
      (mergeDownloads rules localPaths rs st).ok = true ∧
      (mergeDownloads rules localPaths rs st).calls =
        (rs.filter (fun r =>
          !(isExcluded rules r.path) && !(localPaths.contains r.path))).map
          (fun r => ApiCall.get r.path)) :=
  ⟨fun hash rules localPaths remotes st hread =>
      executePush_calls hash rules localPaths remotes st hread,
   fun rules rs st => ⟨executePull_ok rules rs st, executePull_calls rules rs st⟩,
   fun rules localPaths rs st =>
      ⟨mergeDownloads_ok rules localPaths rs st,
       mergeDownloads_calls rules localPaths rs st⟩⟩

theorem transfer_failures_contained_witness :
    (executePush sampleHash [] ["notes/a.md", "notes/b.md"]
      (listRemote sampleState.remoteFs) sampleState).ok = true :=
  (transfer_failures_contained.1 sampleHash [] ["notes/a.md", "notes/b.md"]
    (listRemote sampleState.remoteFs) sampleState (by decide)).1

/-- C4: the LocalToRemote strategy uploads every local path — with the
matching tree entry's token as update token when the path is present in
the listing, and no token when absent — and deletes, with its token,
exactly those remote entries whose paths are neither local nor excluded;
it downloads nothing. -/
theorem executePush_plan (hash : Content → String) (rules localPaths : List String)
    (remotes : List RemoteEntry) (st : SyncState)
    (hread : ∀ p ∈ localPaths, (lookupLocal st.localFs p).isSome = true)
    (hu : remotes.Pairwise (fun a b => a.path ≠ b.path)) :
    (∀ (p : String) (e : RemoteEntry), p ∈ localPaths → e ∈ remotes → e.path = p →
      ∃ c, ApiCall.put p (some e.sha) c ∈
        (executePush hash rules localPaths remotes st).calls) ∧
    (∀ p : String, p ∈ localPaths → (∀ e ∈ remotes, e.path ≠ p) →
      ∃ c, ApiCall.put p none c ∈
        (executePush hash rules localPaths remotes st).calls) ∧
    (∀ e ∈ remotes, e.path ∉ localPaths → isExcluded rules e.path = false →
      ApiCall.del e.path e.sha ∈
        (executePush hash rules localPaths remotes st).calls) ∧
    (∀ q s, ApiCall.del q s ∈ (executePush hash rules localPaths remotes st).calls →
      ∃ e ∈ remotes, e.path = q ∧ e.sha = s ∧ q ∉ localPaths ∧
        isExcluded rules q = false) ∧
    (∀ q, ApiCall.get q ∉ (executePush hash rules localPaths remotes st).calls) := by
  obtain ⟨hok, hcalls⟩ := executePush_calls hash rules localPaths remotes st hread
  refine ⟨?_, ?_, ?_, ?_, ?_⟩
  · intro p e hp hel hep
    refine ⟨(lookupLocal st.localFs p).getD [], ?_⟩
    rw [hcalls]
    refine List.mem_append_left _ (List.mem_map.mpr ⟨p, hp, ?_⟩)
    have hfind : remotes.find? (fun r => r.path == p) = some e := by
      have h1 := find?_key_eq RemoteEntry.path remotes hu e hel
      rw [hep] at h1
      exact h1
    rw [hfind]
    rfl
  · intro p hp hnone
    refine ⟨(lookupLocal st.localFs p).getD [], ?_⟩
    rw [hcalls]
    refine List.mem_append_left _ (List.mem_map.mpr ⟨p, hp, ?_⟩)
    have hfind : remotes.find? (fun r => r.path == p) = none := by
      rw [List.find?_eq_none]
      intro x hx hbx
      exact hnone x hx (by simpa using hbx)
    rw [hfind]
    rfl
  · intro e hel hnl hexc
    rw [hcalls]
    refine List.mem_append_right _ (List.mem_map.mpr ⟨e, ?_, rfl⟩)
    refine List.mem_filter.mpr ⟨hel, ?_⟩
    have hc : localPaths.contains e.path = false := by
      cases hcc : localPaths.contains e.path with
      | false => rfl
      | true => exact absurd (List.mem_of_elem_eq_true hcc) hnl
    rw [hc, hexc]
    rfl
  · intro q s hmem
    rw [hcalls] at hmem
    rcases List.mem_append.mp hmem with h | h
    · rcases List.mem_map.mp h with ⟨p, _, heq⟩
      exact absurd heq (by simp)
    · rcases List.mem_map.mp h with ⟨e, hef, heq⟩
      have hel := (List.mem_filter.mp hef).1
      have hpred := (List.mem_filter.mp hef).2
      have hep : e.path = q := by
        have := congrArg (fun a => match a with
          | ApiCall.del x _ => x
          | _ => "") heq
        simpa using this
      have hes : e.sha = s := by
        have := congrArg (fun a => match a with
          | ApiCall.del _ x => x
          | _ => "") heq
        simpa using this
      simp only [Bool.and_eq_true, Bool.not_eq_eq_eq_not, Bool.not_true] at hpred
      refine ⟨e, hel, hep, hes, ?_, ?_⟩
      · intro hql
        have : localPaths.contains e.path = true := by
          rw [hep]
          exact List.elem_eq_true_of_mem hql
        rw [this] at hpred
        simp at hpred
      · rw [← hep]
        exact hpred.2
  · intro q hmem
    rw [hcalls] at hmem
    rcases List.mem_append.mp hmem with h | h
    · rcases List.mem_map.mp h with ⟨p, _, heq⟩
      exact absurd heq (by simp)
    · rcases List.mem_map.mp h with ⟨e, _, heq⟩
      exact absurd heq (by simp)

theorem executePush_plan_witness :
    (∃ c, ApiCall.put "notes/a.md" (some "tokenA") c ∈
      (executePush sampleHash [] ["notes/a.md", "notes/b.md"]
        [⟨"notes/a.md", "tokenA"⟩, ⟨"notes/c.md", "tokenC"⟩] sampleState).calls) ∧
    (∃ c, ApiCall.put "notes/b.md" none c ∈
      (executePush sampleHash [] ["notes/a.md", "notes/b.md"]
        [⟨"notes/a.md", "tokenA"⟩, ⟨"notes/c.md", "tokenC"⟩] sampleState).calls) ∧
    ApiCall.del "notes/c.md" "tokenC" ∈
      (executePush sampleHash [] ["notes/a.md", "notes/b.md"]
        [⟨"notes/a.md", "tokenA"⟩, ⟨"notes/c.md", "tokenC"⟩] sampleState).calls :=
  ⟨(executePush_plan sampleHash [] ["notes/a.md", "notes/b.md"]
      [⟨"notes/a.md", "tokenA"⟩, ⟨"notes/c.md", "tokenC"⟩] sampleState
      (by decide) (by decide)).1 "notes/a.md" ⟨"notes/a.md", "tokenA"⟩
      (by decide) (by decide) rfl,
   (executePush_plan sampleHash [] ["notes/a.md", "notes/b.md"]
      [⟨"notes/a.md", "tokenA"⟩, ⟨"notes/c.md", "tokenC"⟩] sampleState
      (by decide) (by decide)).2.1 "notes/b.md" (by decide) (by decide),
   (executePush_plan sampleHash [] ["notes/a.md", "notes/b.md"]
      [⟨"notes/a.md", "tokenA"⟩, ⟨"notes/c.md", "tokenC"⟩] sampleState
      (by decide) (by decide)).2.2.1 ⟨"notes/c.md", "tokenC"⟩
      (by decide) (by decide) (by decide)⟩

/-- C8: for every strategy mode, when the token or the repository
identifier is the empty string, `sync` aborts at once: the state is
untouched and no API call is made at all — in particular the remote tree
is never fetched and nothing is uploaded, downloaded or deleted. -/
theorem sync_aborts_without_config (hash : Content → String) (settings : Settings)
    (mode : String) (st : SyncState)
    (h : settings.token = "" ∨ settings.repo = "") :
    sync hash settings mode st = ⟨st, false, []⟩ := by
  unfold sync
  rcases h with h | h <;> simp [h]

theorem sync_aborts_without_config_witness :
    sync sampleHash ⟨"", "owner/repo", "main", []⟩ "merge" sampleState =
      ⟨sampleState, false, []⟩ :=
  sync_aborts_without_config sampleHash ⟨"", "owner/repo", "main", []⟩
    "merge" sampleState (Or.inl rfl)

/-- C10: with valid configuration, every mode string other than
`local_to_remote` and `remote_to_local` — not only the documented
`merge` — runs the Merge strategy: `sync` behaves identically to a
`merge` invocation. -/
theorem sync_unknown_mode_merges (hash : Content → String) (settings : Settings)
    (mode : String) (st : SyncState)
    (ht : settings.token ≠ "") (hr : settings.repo ≠ "")
    (h1 : mode ≠ "local_to_remote") (h2 : mode ≠ "remote_to_local") :
    sync hash settings mode st = sync hash settings "merge" st := by
  unfold sync
  have e0 : (settings.token == "") = false := beq_eq_false_iff_ne.mpr ht
  have e1 : (settings.repo == "") = false := beq_eq_false_iff_ne.mpr hr
  have e2 : (mode == "local_to_remote") = false := beq_eq_false_iff_ne.mpr h1
  have e3 : (mode == "remote_to_local") = false := beq_eq_false_iff_ne.mpr h2
  simp [e0, e1, e2, e3]

theorem sync_unknown_mode_merges_witness :
    sync sampleHash ⟨"tok", "owner/repo", "main", []⟩ "bidirectional" sampleState =
      sync sampleHash ⟨"tok", "owner/repo", "main", []⟩ "merge" sampleState :=
  sync_unknown_mode_merges sampleHash ⟨"tok", "owner/repo", "main", []⟩
    "bidirectional" sampleState (by decide) (by decide) (by decide) (by decide)
